import Mathlib

/-!
Verification of the orchestrator execution engine of the repository
(`src/orchestrator/executor.py`, `src/orchestrator/run_llm.py` /
`src/orchestrator/run_agent.py`), via a shallow embedding.

Python values flowing through the engine (tool arguments and results) are
modelled by the inductive `Value`; dicts and dataclass instances, which the
resolver treats identically (keyed field lookup raising a KeyError on a
missing key), are both modelled by `Value.vdict`.  Exceptions are modelled
with `Except`; the textual content of each Python f-string message is
mirrored by the `...Message` functions.  The `asyncio` wave execution is
modelled sequentially: all steps of a wave resolve their arguments against
the results map as it stood before the wave (matching `asyncio.gather`,
which folds results back only after the whole wave at executor.py lines
90-99), progress-callback invocations are modelled as an event trace, and
the unbounded `while` loop is modelled with explicit fuel together with a
proof that fuel `|steps|` can never be exhausted.
-/

/-- A Python value as seen by the executor: None, bool, int, string, list,
or keyed record (dict / dataclass). -/
inductive Value where
  | vnone : Value
  | vbool : Bool → Value
  | vint : Int → Value
  | vstr : String → Value
  | vlist : List Value → Value
  | vdict : List (String × Value) → Value

/-- First-match association-list lookup, modelling Python dict lookup
(`results[step_id]`, `value[field]`, `d.get(k)`). -/
def lookupKey {α : Type} : List (String × α) → String → Option α
  | [], _ => none
  | (k, v) :: rest, key => if k = key then some v else lookupKey rest key

/-- Python dict assignment `d[k] = v`: replaces the value in place if the
key is present, otherwise appends the binding. -/
def dictInsert {α : Type} : List (String × α) → String → α → List (String × α)
  | [], key, v => [(key, v)]
  | (k, w) :: rest, key, v =>
    if k = key then (k, v) :: rest else (k, w) :: dictInsert rest key v

/-- Python `s.startswith("$")`: the first character is `$`. -/
def startsWithDollar (s : String) : Bool :=
  match s.data with
  | [] => false
  | c :: _ => c = '$'

/-- Python `s[1:]`: drop the first character. -/
def dropSigil (s : String) : String := String.mk (s.data.drop 1)

/-- Helper for `splitDot`: accumulate the current segment (in reverse). -/
def splitDotAux : List Char → List Char → List (List Char)
  | [], cur => [cur.reverse]
  | c :: cs, cur =>
    if c = '.' then cur.reverse :: splitDotAux cs [] else splitDotAux cs (c :: cur)

/-- Python `s.split(".")`: split on every dot; the result is never empty
(`"".split(".") == [""]`). -/
def splitDot (s : String) : List String := (splitDotAux s.data []).map String.mk

/-- The failure cases of `_resolve_variable` (executor.py lines 244-264):
two `KeyError`s and one `TypeError`. -/
inductive ResolveError where
  | stepNotFound (stepId : String)
  | fieldNotFound (field stepId : String)
  | typeErr (field stepId : String)
deriving DecidableEq

/-- The message of each resolver exception, mirroring the f-strings at
executor.py lines 245, 254/259 and 262-264. -/
def resolveErrorMessage : ResolveError → String
  | .stepNotFound sid =>
      "Step \x27" ++ sid ++ "\x27 not found in results"
  | .fieldNotFound f sid =>
      "Field \x27" ++ f ++ "\x27 not found in step \x27" ++ sid ++ "\x27 result"
  | .typeErr f sid =>
      "Cannot access field \x27" ++ f ++
        "\x27 on non-dict/non-dataclass value from step \x27" ++ sid ++ "\x27"

/-- One iteration of the field-navigation loop body of `_resolve_variable`
(executor.py lines 251-264): dict and dataclass values both do keyed lookup
(KeyError on absence), anything else is a TypeError. -/
def lookupField (v : Value) (field stepId : String) : Except ResolveError Value :=
  match v with
  | .vdict kvs =>
    match lookupKey kvs field with
    | some w => .ok w
    | none => .error (.fieldNotFound field stepId)
  | _ => .error (.typeErr field stepId)

/-- The `for field in parts[1:]` loop of `_resolve_variable`. -/
def resolveFields (stepId : String) : Value → List String → Except ResolveError Value
  | v, [] => .ok v
  | v, f :: fs =>
    match lookupField v f stepId with
    | .ok w => resolveFields stepId w fs
    | .error e => .error e

/-- `_resolve_variable` (executor.py lines 224-266): strip the `$` sigil,
split on `.`, look the head up in `results`, then navigate the remaining
field segments.  (Python `"x".split(".")` never returns an empty list, so
the `[]` branch is unreachable.) -/
def resolve_variable (var_ref : String) (results : List (String × Value)) :
    Except ResolveError Value :=
  -- var_path = var_ref[1:]; parts = var_path.split(".")
  match splitDot (dropSigil var_ref) with
  | [] => .error (.stepNotFound "")
  | step_id :: fields =>
    match lookupKey results step_id with
    | none => .error (.stepNotFound step_id)
    | some v => resolveFields step_id v fields

/-- The per-element rule of the list branch of `_resolve_arguments`
(executor.py lines 213-217): a string element starting with `$` is resolved,
every other element is kept as-is. -/
def resolveListItem (results : List (String × Value)) (item : Value) :
    Except ResolveError Value :=
  match item with
  | .vstr s => if startsWithDollar s then resolve_variable s results else .ok item
  | _ => .ok item

/-- The per-value rule of `_resolve_arguments` (executor.py lines 207-219):
`$`-strings are references, lists are mapped element-wise, everything else
is a literal. -/
def resolveValue (results : List (String × Value)) (v : Value) :
    Except ResolveError Value :=
  match v with
  | .vstr s => if startsWithDollar s then resolve_variable s results else .ok v
  | .vlist items => (items.mapM (resolveListItem results)).map .vlist
  | _ => .ok v

/-- `_resolve_arguments` (executor.py lines 187-221): rebuild the arguments
dict, resolving each value; the first exception aborts. -/
def resolve_arguments (arguments : List (String × Value))
    (results : List (String × Value)) :
    Except ResolveError (List (String × Value)) :=
  match arguments with
  | [] => .ok []
  | (k, v) :: rest => do
    let rv ← resolveValue results v
    let rrest ← resolve_arguments rest results
    pure ((k, rv) :: rrest)

/-- `ExecutionStep` (models.py lines 37-44). -/
structure ExecutionStep where
  id : String
  service_name : String
  tool_name : String
  arguments : List (String × Value)
  depends_on : List String

/-- `ExecutionPlan` (models.py lines 47-51). -/
structure ExecutionPlan where
  steps : List ExecutionStep
  rationale : String

/-- A tool function: takes the resolved keyword arguments and either
returns a result value or raises (modelled by `.error` carrying the
exception text rendered into the wrapper message). -/
def Tool : Type := List (String × Value) → Except String Value

/-- A registered MCP server, modelled by its `get_tools()` dict. -/
def Server : Type := List (String × Tool)

/-- `SERVER_REGISTRY`: a dict from service name to server. -/
def Registry : Type := List (String × Server)

/-- The ways `execute_plan` can fail.  `deadlock`, `serverNotFound`,
`toolNotFound` and `toolFailure` model the four `RuntimeError`s of
executor.py (lines 69-72, 145-148, 155-158, 177-180); `resolveFailure`
models a resolver `KeyError`/`TypeError` escaping un-wrapped (resolution at
line 140 happens outside the `try` at line 162); `blocked` marks that a
step would wait forever on a zero-capacity semaphore, and `fuelExhausted`
is a model artifact for running out of loop fuel (proved unreachable). -/
inductive ExecError where
  | deadlock (remaining : List String)
  | resolveFailure (e : ResolveError)
  | serverNotFound (service : String) (availableServers : List String)
  | toolNotFound (tool service : String) (availableTools : List String)
  | toolFailure (stepId service tool : String) (cause : String)
  | blocked
  | fuelExhausted

/-- Python `repr` of a list of strings, as interpolated into f-strings. -/
def pyStrList (xs : List String) : String :=
  "[" ++ String.intercalate ", " (xs.map (fun s => "\x27" ++ s ++ "\x27")) ++ "]"

/-- The message of each engine `RuntimeError`, mirroring the f-strings of
executor.py (the last two constructors are model artifacts). -/
def execErrorMessage : ExecError → String
  | .deadlock remaining =>
      "Cannot execute plan: circular dependency or missing steps. " ++
        "Remaining steps: " ++ pyStrList remaining
  | .resolveFailure e => resolveErrorMessage e
  | .serverNotFound service avail =>
      "Server not found: " ++ service ++ ". Available servers: " ++ pyStrList avail
  | .toolNotFound tool service avail =>
      "Tool \x27" ++ tool ++ "\x27 not found in server \x27" ++ service ++
        "\x27. Available tools: " ++ pyStrList avail
  | .toolFailure stepId service tool cause =>
      "Error executing step \x27" ++ stepId ++ "\x27 (" ++ service ++ ":" ++
        tool ++ "): " ++ cause
  | .blocked => "blocked on semaphore"
  | .fuelExhausted => "fuel exhausted"

/-- One invocation of the progress callback, with the arguments
`(current_step_num, total_steps, step, result)` of executor.py line 31:
`result = none` signals start, `result = some r` signals completion. -/
structure CallbackEvent where
  stepNum : Nat
  totalSteps : Nat
  step : ExecutionStep
  result : Option Value

/-- `_execute_step` (executor.py lines 104-184), minus the progress
callback (emitted by the loop, see `execute_loop`).  A zero-capacity
semaphore would make `await semaphore.acquire()` wait forever, modelled by
`.blocked`; the arguments are resolved against `results` as it stood when
the wave was launched, then the server and tool are looked up, and the
tool is invoked, its exception wrapped in a `RuntimeError` naming the step
and tool (lines 176-180). -/
def execute_step (reg : Registry) (semaphore : Option Nat)
    (step : ExecutionStep) (results : List (String × Value)) :
    Except ExecError Value :=
  if semaphore = some 0 then .error .blocked else
  match resolve_arguments step.arguments results with
  | .error e => .error (.resolveFailure e)
  | .ok resolved_args =>
    match lookupKey reg step.service_name with
    | none => .error (.serverNotFound step.service_name (reg.map Prod.fst))
    | some mcp_server =>
      match lookupKey mcp_server step.tool_name with
      | none =>
        .error (.toolNotFound step.tool_name step.service_name
          (mcp_server.map Prod.fst))
      | some tool_func =>
        match tool_func resolved_args with
        | .ok result => .ok result
        | .error e =>
          .error (.toolFailure step.id step.service_name step.tool_name e)

/-- Run one wave of ready steps.  All steps of a wave see the same
pre-wave `results` map (the code only folds results back after
`asyncio.gather`, lines 90-95); the first exception aborts the run. -/
def runWave (reg : Registry) (semaphore : Option Nat)
    (results : List (String × Value)) :
    List ExecutionStep → Except ExecError (List Value)
  | [] => .ok []
  | s :: rest => do
    let r ← execute_step reg semaphore s results
    let rs ← runWave reg semaphore results rest
    pure (r :: rs)

/-- Fold a finished wave back into `results`/`completed` and emit the
completion callbacks, following executor.py lines 93-99: the completion
event for a step carries `len(completed)` as computed after adding that
step. -/
def completeWave (totalSteps : Nat) :
    List (ExecutionStep × Value) → List (String × Value) → List String →
    List (String × Value) × List String × List CallbackEvent
  | [], results, completed => (results, completed, [])
  | (s, r) :: rest, results, completed =>
    let completed' := if s.id ∈ completed then completed else completed ++ [s.id]
    let out := completeWave totalSteps rest (dictInsert results s.id r) completed'
    (out.1, out.2.1, (⟨completed'.length, totalSteps, s, some r⟩ : CallbackEvent) :: out.2.2)

/-- The ready set of executor.py lines 57-64: steps not yet completed all
of whose dependencies are completed. -/
def executableSteps (plan : ExecutionPlan) (completed : List String) :
    List ExecutionStep :=
  plan.steps.filter (fun step =>
    decide (step.id ∉ completed) && step.depends_on.all (fun dep => dep ∈ completed))

/-- The `remaining` list of executor.py line 68. -/
def remainingIds (plan : ExecutionPlan) (completed : List String) : List String :=
  (plan.steps.filter (fun s => decide (s.id ∉ completed))).map (fun s => s.id)

/-- The start-of-step callback events of one wave: executor.py line 78
numbers the steps `len(completed) + i + 1`, and each task fires its start
callback (line 137) when it begins running, in task-creation order. -/
def waveStartEvents (completedCount totalSteps : Nat)
    (wave : List ExecutionStep) : List CallbackEvent :=
  wave.enum.map (fun p => ⟨completedCount + p.1 + 1, totalSteps, p.2, none⟩)

/-- The `while len(completed) < len(plan.steps)` loop of executor.py lines
55-99, with explicit fuel (proved sufficient: see the termination
theorems).  Returns the outcome together with the full trace of progress
callback invocations. -/
def execute_loop (reg : Registry) (semaphore : Option Nat)
    (plan : ExecutionPlan) :
    Nat → List (String × Value) → List String → List CallbackEvent →
    Except ExecError (List (String × Value)) × List CallbackEvent
  | fuel, results, completed, trace =>
    if completed.length < plan.steps.length then
      match fuel with
      | 0 => (.error .fuelExhausted, trace)
      | fuel' + 1 =>
        let wave := executableSteps plan completed
        match wave with
        | [] => (.error (.deadlock (remainingIds plan completed)), trace)
        | _ :: _ =>
          let trace' := trace ++ waveStartEvents completed.length plan.steps.length wave
          match runWave reg semaphore results wave with
          | .error e => (.error e, trace')
          | .ok rs =>
            let out := completeWave plan.steps.length (wave.zip rs) results completed
            execute_loop reg semaphore plan fuel' out.1 out.2.1 (trace' ++ out.2.2)
    else
      (.ok results, trace)

/-- `asyncio.Semaphore(max_concurrent) if max_concurrent else None`
(executor.py line 52): Python truthiness makes `0` behave like `None`. -/
def mkSemaphore (max_concurrent : Option Nat) : Option Nat :=
  match max_concurrent with
  | none => none
  | some n => if n = 0 then none else some n

/-- `execute_plan` (executor.py lines 19-101).  Fuel `|steps|` is enough:
see the termination theorems below. -/
def execute_plan (reg : Registry) (plan : ExecutionPlan)
    (max_concurrent : Option Nat) :
    Except ExecError (List (String × Value)) × List CallbackEvent :=
  execute_loop reg (mkSemaphore max_concurrent) plan plan.steps.length [] [] []

/-- A tool descriptor as consumed by `validate_execution_plan`: the
`server` and `name` entries of a schema dict from `registry.get_all_tools`
(the other entries are irrelevant to validation). -/
structure ToolInfo where
  server : String
  name : String

/-- `validate_execution_plan` (run_llm.py lines 96-132 and its verbatim
copy in run_agent.py lines 167-203): for each step, one error if the key
`service_name.tool_name` is absent from the tool map, plus one error per
dependency ID absent from the plan's step IDs. -/
def validate_execution_plan (plan : ExecutionPlan)
    (available_tools : List ToolInfo) : List String :=
  let toolKeys := available_tools.map (fun t => t.server ++ "." ++ t.name)
  let step_ids := plan.steps.map (fun s => s.id)
  plan.steps.flatMap (fun step =>
    (if (step.service_name ++ "." ++ step.tool_name) ∈ toolKeys then []
     else ["Step \x27" ++ step.id ++ "\x27: Tool \x27" ++ step.service_name ++
       "." ++ step.tool_name ++ "\x27 not found in registry"]) ++
    step.depends_on.filterMap (fun dep =>
      if dep ∈ step_ids then none
      else some ("Step \x27" ++ step.id ++ "\x27: Dependency \x27" ++ dep ++
        "\x27 not found in plan")))

/-! ## Spec-side description of reference resolution

The following definitions transcribe the specification wording for the
Variable Resolver ("look up the first segment as a step ID in the results
map and then traverse each remaining segment as a keyed field access"),
to be compared with the source-derived `resolve_variable`. -/

/-- Spec-side "keyed field access": defined on keyed records only. -/
def keyedAccess (v : Value) (field : String) : Option Value :=
  match v with
  | .vdict kvs => lookupKey kvs field
  | _ => none

/-- Spec-side traversal of a sequence of field segments. -/
def walkFields : Value → List String → Option Value
  | v, [] => some v
  | v, f :: fs =>
    match keyedAccess v f with
    | some w => walkFields w fs
    | none => none

/-- Spec-side resolution of a reference, following the claim wording:
strip the `$`, split on `.`, look the first segment up in the results map,
traverse each remaining segment as a keyed field access. -/
def specResolveRef (ref : String) (results : List (String × Value)) :
    Option Value :=
  match splitDot (dropSigil ref) with
  | [] => none
  | stepId :: fields =>
    match lookupKey results stepId with
    | none => none
    | some v => walkFields v fields

/-- A value is record-like (keyed) when it is a dict/dataclass. -/
def IsRecord (v : Value) : Prop := ∃ kvs, v = Value.vdict kvs

/-- The first failing traversal step, if any: returns the field segment at
which the walk gets stuck together with the value it was applied to. -/
def firstFailure : Value → List String → Option (String × Value)
  | _, [] => none
  | v, f :: fs =>
    match keyedAccess v f with
    | some w => firstFailure w fs
    | none => some (f, v)

/-- Bool test for record-likeness (dict / dataclass). -/
def isRecordB : Value → Bool
  | .vdict _ => true
  | _ => false

/-! ## Which step IDs an arguments mapping references

`argRefSteps` collects the leading step-ID segment of every `$`-reference
the resolver would try to look up (top-level `$`-strings and `$`-string
elements of lists), used to show the "step not found" branch unreachable
for well-referenced plans. -/

/-- The step-ID segment of a reference string. -/
def refStepId (s : String) : String := (splitDot (dropSigil s)).headD ""

/-- References made by one list element. -/
def itemRefSteps (item : Value) : List String :=
  match item with
  | .vstr s => if startsWithDollar s then [refStepId s] else []
  | _ => []

/-- References made by one argument value. -/
def valueRefSteps (v : Value) : List String :=
  match v with
  | .vstr s => if startsWithDollar s then [refStepId s] else []
  | .vlist items => items.flatMap itemRefSteps
  | _ => []

/-- References made by a whole arguments mapping. -/
def argRefSteps (args : List (String × Value)) : List String :=
  args.flatMap (fun kv => valueRefSteps kv.2)

/-! ## Plans that can never complete -/

/-- A dependency cycle: a nonempty circular list of step IDs such that,
at every position, some plan step carries that ID and depends on the ID at
the next position (cyclically). -/
def HasDependencyCycle (plan : ExecutionPlan) : Prop :=
  ∃ c : List String, ∃ hne : c ≠ [],
    ∀ i : Fin c.length,
      ∃ s ∈ plan.steps, s.id = c.get i ∧
        c.get ⟨(i.1 + 1) % c.length,
          Nat.mod_lt _ (List.length_pos.mpr hne)⟩ ∈ s.depends_on

/-- A `depends_on` entry naming no step of the plan. -/
def HasDanglingDep (plan : ExecutionPlan) : Prop :=
  ∃ s ∈ plan.steps, ∃ d ∈ s.depends_on, d ∉ plan.steps.map (fun t => t.id)

/-- The P6 cycle plan: step A depends on step B and B depends on A. -/
def cyclePlanC1 : ExecutionPlan :=
  ⟨[⟨"A", "svc", "tool", [], ["B"]⟩, ⟨"B", "svc", "tool", [], ["A"]⟩],
    "A and B depend on each other"⟩

/-- The P6 dangling plan: step B depends on a nonexistent step C. -/
def danglingPlanC1 : ExecutionPlan :=
  ⟨[⟨"A", "svc", "tool", [], ["B"]⟩, ⟨"B", "svc", "tool", [], ["C"]⟩],
    "B depends on nonexistent C"⟩

/-- An acyclic dependency graph: the step IDs can be ranked so that every
dependency has strictly smaller rank. -/
def PlanAcyclic (plan : ExecutionPlan) : Prop :=
  ∃ rank : String → Nat, ∀ s ∈ plan.steps, ∀ d ∈ s.depends_on, rank d < rank s.id

/-- A two-step chain plan used to instantiate C3: step2 references
`$step1` and depends on step1. -/
def chainPlanC3 : ExecutionPlan :=
  ⟨[⟨"step1", "svc", "tool", [], []⟩,
    ⟨"step2", "svc", "tool", [("x", .vstr "$step1")], ["step1"]⟩],
    "step2 consumes step1"⟩

/-- The tools of the C4 instance: one succeeding, one raising. -/
def toolOkC4 : Tool := fun _ => .ok (.vstr "fine")

/-- A tool that raises (`division by zero`). -/
def toolBoomC4 : Tool := fun _ => .error "division by zero"

/-- Registry for the C4 instance. -/
def regC4 : Registry := [("svc", [("good", toolOkC4), ("boom", toolBoomC4)])]

/-- A plan with a succeeding step `a` and a raising step `b`. -/
def planC4 : ExecutionPlan :=
  ⟨[⟨"a", "svc", "good", [], []⟩, ⟨"b", "svc", "boom", [], []⟩],
    "one failing step"⟩

/-- One-step plan with an unknown service, parameterised by the step ID. -/
def planC5 (i : String) : ExecutionPlan :=
  ⟨[⟨i, "nosvc", "t", [], []⟩], "unknown service"⟩

/-- A registry knowing only `calendar` (with no tools). -/
def regC5 : Registry := [("calendar", [])]

/-- A registry for the unknown-tool case. -/
def regC5b : Registry := [("svc", [("t1", toolOkC4)])]

/-- One-step plan asking a known service for an unknown tool. -/
def planC5b : ExecutionPlan :=
  ⟨[⟨"s1", "svc", "missing", [], []⟩], "unknown tool"⟩

/-- One-step plan exhibiting the dotted-name key collision. -/
def dotPlanC8 : ExecutionPlan := ⟨[⟨"s1", "a", "b.c", [], []⟩], "dotted tool name"⟩

/-- Available tools for the collision instance. -/
def dotToolsC8 : List ToolInfo := [⟨"a.b", "c"⟩]

/-- Tool for the C9 witness: always returns 42. -/
def toolC9 : Tool := fun _ => .ok (.vint 42)

/-- Registry for the C9 witness. -/
def regC9 : Registry := [("svc", [("t", toolC9)])]

/-- The single step of the C9 witness. -/
def stepC9 : ExecutionStep := ⟨"only", "svc", "t", [], []⟩

/-! ## Theorems -/

theorem splitDotAux_ne_nil (cs cur : List Char) : splitDotAux cs cur ≠ [] := by
  induction cs generalizing cur with
  | nil => simp [splitDotAux]
  | cons c cs ih =>
    simp only [splitDotAux]
    split
    · simp
    · exact ih _

theorem splitDot_ne_nil (s : String) : splitDot s ≠ [] := by
  simp [splitDot, splitDotAux_ne_nil]

theorem resolveFields_ok_iff (fs : List String) (sid : String) (v w : Value) :
    resolveFields sid v fs = .ok w ↔ walkFields v fs = some w := by
  induction fs generalizing v with
  | nil => simp [resolveFields, walkFields]
  | cons f fs ih =>
    cases v with
    | vdict kvs =>
      simp only [resolveFields, walkFields, lookupField, keyedAccess]
      cases lookupKey kvs f with
      | none => simp
      | some u => simpa using ih u
    | vnone => simp [resolveFields, walkFields, lookupField, keyedAccess]
    | vbool b => simp [resolveFields, walkFields, lookupField, keyedAccess]
    | vint n => simp [resolveFields, walkFields, lookupField, keyedAccess]
    | vstr s => simp [resolveFields, walkFields, lookupField, keyedAccess]
    | vlist l => simp [resolveFields, walkFields, lookupField, keyedAccess]

theorem resolveFields_ne_stepNotFound (fs : List String) (sid x : String)
    (v : Value) : resolveFields sid v fs ≠ .error (.stepNotFound x) := by
  induction fs generalizing v with
  | nil => simp [resolveFields]
  | cons f fs ih =>
    cases v with
    | vdict kvs =>
      simp only [resolveFields, lookupField]
      cases lookupKey kvs f with
      | none => simp
      | some u => simpa using ih u
    | vnone => simp [resolveFields, lookupField]
    | vbool b => simp [resolveFields, lookupField]
    | vint n => simp [resolveFields, lookupField]
    | vstr s => simp [resolveFields, lookupField]
    | vlist l => simp [resolveFields, lookupField]

theorem resolve_variable_ok_iff (ref : String)
    (results : List (String × Value)) (w : Value) :
    resolve_variable ref results = .ok w ↔ specResolveRef ref results = some w := by
  unfold resolve_variable specResolveRef
  cases h : splitDot (dropSigil ref) with
  | nil => simp
  | cons sid fs =>
    dsimp only
    cases hl : lookupKey results sid with
    | none => simp
    | some v => simpa using resolveFields_ok_iff fs sid v w

theorem resolve_variable_stepNotFound_iff (ref : String)
    (results : List (String × Value)) (x : String) :
    resolve_variable ref results = .error (.stepNotFound x) ↔
      x = (splitDot (dropSigil ref)).headD "" ∧ lookupKey results x = none := by
  unfold resolve_variable
  cases h : splitDot (dropSigil ref) with
  | nil => exact absurd h (splitDot_ne_nil _)
  | cons sid fs =>
    dsimp only
    cases hl : lookupKey results sid with
    | none =>
      simp only [List.headD_cons]
      constructor
      · intro he
        have : ResolveError.stepNotFound sid = .stepNotFound x := by
          simpa using he
        cases this
        exact ⟨rfl, hl⟩
      · rintro ⟨rfl, -⟩
        rfl
    | some v =>
      simp only [List.headD_cons]
      constructor
      · intro he
        exact absurd he (resolveFields_ne_stepNotFound fs sid x v)
      · rintro ⟨rfl, hnone⟩
        rw [hl] at hnone
        cases hnone

theorem resolve_variable_eq (ref sid : String) (fs : List String)
    (results : List (String × Value))
    (h : splitDot (dropSigil ref) = sid :: fs) :
    resolve_variable ref results =
      match lookupKey results sid with
      | none => .error (.stepNotFound sid)
      | some v => resolveFields sid v fs := by
  unfold resolve_variable
  rw [h]

theorem isRecordB_iff (v : Value) : isRecordB v = true ↔ IsRecord v := by
  cases v <;> simp [isRecordB, IsRecord]

theorem lookupField_eq (v : Value) (g sid : String) :
    lookupField v g sid =
      match keyedAccess v g with
      | some w => .ok w
      | none =>
        .error (if isRecordB v then .fieldNotFound g sid else .typeErr g sid) := by
  cases v with
  | vdict kvs =>
    simp only [lookupField, keyedAccess, isRecordB]
    cases lookupKey kvs g <;> simp
  | vnone => rfl
  | vbool b => rfl
  | vint n => rfl
  | vstr s => rfl
  | vlist l => rfl

theorem resolveFields_error_iff (fs : List String) (sid : String)
    (v : Value) (e : ResolveError) :
    resolveFields sid v fs = .error e ↔
      ∃ f w, firstFailure v fs = some (f, w) ∧
        ((IsRecord w ∧ e = .fieldNotFound f sid) ∨
          (¬IsRecord w ∧ e = .typeErr f sid)) := by
  induction fs generalizing v with
  | nil => simp [resolveFields, firstFailure]
  | cons g gs ih =>
    rw [resolveFields, lookupField_eq]
    cases hk : keyedAccess v g with
    | some w =>
      simp only [firstFailure, hk]
      exact ih w
    | none =>
      simp only [firstFailure, hk, Option.some.injEq, Prod.mk.injEq]
      by_cases hr : IsRecord v
      · rw [if_pos ((isRecordB_iff v).mpr hr)]
        constructor
        · intro he
          have h2 : ResolveError.fieldNotFound g sid = e := by simpa using he
          exact ⟨g, v, ⟨rfl, rfl⟩, Or.inl ⟨hr, h2.symm⟩⟩
        · rintro ⟨f, w, ⟨rfl, rfl⟩, hcase⟩
          rcases hcase with ⟨-, rfl⟩ | ⟨hnr, -⟩
          · rfl
          · exact absurd hr hnr
      · rw [if_neg (fun hb => hr ((isRecordB_iff v).mp hb))]
        constructor
        · intro he
          have h2 : ResolveError.typeErr g sid = e := by simpa using he
          exact ⟨g, v, ⟨rfl, rfl⟩, Or.inr ⟨hr, h2.symm⟩⟩
        · rintro ⟨f, w, ⟨rfl, rfl⟩, hcase⟩
          rcases hcase with ⟨hw, -⟩ | ⟨-, rfl⟩
          · exact absurd hw hr
          · rfl

theorem walkFields_total_of_no_failure (fs : List String) (v : Value)
    (h : firstFailure v fs = none) : ∃ w, walkFields v fs = some w := by
  induction fs generalizing v with
  | nil => exact ⟨v, rfl⟩
  | cons g gs ih =>
    simp only [firstFailure] at h
    cases hk : keyedAccess v g with
    | none => rw [hk] at h; cases h
    | some w =>
      rw [hk] at h
      obtain ⟨u, hu⟩ := ih w h
      exact ⟨u, by simp [walkFields, hk, hu]⟩

theorem mapM_except_error {α β ε : Type} (f : α → Except ε β) (l : List α)
    (e : ε) (h : l.mapM f = .error e) : ∃ a ∈ l, f a = .error e := by
  induction l with
  | nil => exact Except.noConfusion h
  | cons a l ih =>
    rw [List.mapM_cons] at h
    cases ha : f a with
    | error e' =>
      rw [ha] at h
      have : e' = e := by
        simpa [Bind.bind, Except.bind] using h
      exact ⟨a, List.mem_cons_self a l, by rw [ha, this]⟩
    | ok b =>
      rw [ha] at h
      cases hl : l.mapM f with
      | error e' =>
        rw [hl] at h
        have : e' = e := by
          simpa [Bind.bind, Except.bind] using h
        obtain ⟨x, hx, hfx⟩ := ih (by rw [hl, this])
        exact ⟨x, List.mem_cons_of_mem a hx, hfx⟩
      | ok bs =>
        rw [hl] at h
        simp [Bind.bind, Except.bind, pure, Except.pure] at h

theorem resolveListItem_stepNotFound (results : List (String × Value))
    (item : Value) (sid : String)
    (h : resolveListItem results item = .error (.stepNotFound sid)) :
    sid ∈ itemRefSteps item ∧ lookupKey results sid = none := by
  cases item with
  | vstr s =>
    by_cases hd : startsWithDollar s
    · simp only [resolveListItem, hd, if_true] at h
      obtain ⟨rfl, hn⟩ := (resolve_variable_stepNotFound_iff s results sid).mp h
      exact ⟨by simp [itemRefSteps, hd, refStepId], hn⟩
    · simp [resolveListItem, hd] at h
  | vnone => simp [resolveListItem] at h
  | vbool b => simp [resolveListItem] at h
  | vint n => simp [resolveListItem] at h
  | vlist l => simp [resolveListItem] at h
  | vdict kvs => simp [resolveListItem] at h

theorem resolveValue_stepNotFound (results : List (String × Value))
    (v : Value) (sid : String)
    (h : resolveValue results v = .error (.stepNotFound sid)) :
    sid ∈ valueRefSteps v ∧ lookupKey results sid = none := by
  cases v with
  | vstr s =>
    by_cases hd : startsWithDollar s
    · simp only [resolveValue, hd, if_true] at h
      obtain ⟨rfl, hn⟩ := (resolve_variable_stepNotFound_iff s results sid).mp h
      exact ⟨by simp [valueRefSteps, hd, refStepId], hn⟩
    · simp [resolveValue, hd] at h
  | vlist items =>
    simp only [resolveValue] at h
    cases hm : items.mapM (resolveListItem results) with
    | ok l => rw [hm] at h; simp [Except.map] at h
    | error e =>
      rw [hm] at h
      simp only [Except.map] at h
      cases h
      obtain ⟨it, hit, hfit⟩ := mapM_except_error _ _ _ hm
      obtain ⟨hmem, hn⟩ := resolveListItem_stepNotFound results it sid hfit
      exact ⟨by simpa [valueRefSteps] using ⟨it, hit, hmem⟩, hn⟩
  | vnone => simp [resolveValue] at h
  | vbool b => simp [resolveValue] at h
  | vint n => simp [resolveValue] at h
  | vdict kvs => simp [resolveValue] at h

theorem resolve_arguments_stepNotFound (args results : List (String × Value))
    (sid : String)
    (h : resolve_arguments args results = .error (.stepNotFound sid)) :
    sid ∈ argRefSteps args ∧ lookupKey results sid = none := by
  induction args with
  | nil => simp [resolve_arguments] at h
  | cons kv rest ih =>
    obtain ⟨k, v⟩ := kv
    simp only [resolve_arguments] at h
    cases hv : resolveValue results v with
    | error e =>
      rw [hv] at h
      have : e = .stepNotFound sid := by
        simpa [Bind.bind, Except.bind] using h
      subst this
      obtain ⟨hmem, hn⟩ := resolveValue_stepNotFound results v sid hv
      exact ⟨by simpa [argRefSteps] using Or.inl hmem, hn⟩
    | ok rv =>
      rw [hv] at h
      cases hr : resolve_arguments rest results with
      | error e =>
        rw [hr] at h
        have : e = .stepNotFound sid := by
          simpa [Bind.bind, Except.bind] using h
        subst this
        obtain ⟨hmem, hn⟩ := ih hr
        exact ⟨by simpa [argRefSteps] using Or.inr (by simpa [argRefSteps] using hmem), hn⟩
      | ok rrest =>
        rw [hr] at h
        simp [Bind.bind, Except.bind, pure, Except.pure] at h

/-! ## Engine helper lemmas -/

theorem lookupKey_dictInsert {α : Type} (d : List (String × α)) (k k' : String)
    (v : α) :
    lookupKey (dictInsert d k v) k' = if k = k' then some v else lookupKey d k' := by
  induction d with
  | nil => simp [dictInsert, lookupKey]
  | cons a rest ih =>
    obtain ⟨ak, av⟩ := a
    by_cases h1 : ak = k
    · subst h1
      simp only [dictInsert, if_pos rfl, lookupKey]
      by_cases h2 : ak = k'
      · subst h2
        simp
      · simp [h2]
    · simp only [dictInsert, if_neg h1, lookupKey]
      by_cases h2 : ak = k'
      · subst h2
        have h3 : ¬(k = ak) := fun h => h1 h.symm
        simp [h3]
      · simp [h2, ih]

theorem mem_executableSteps (plan : ExecutionPlan) (comp : List String)
    (s : ExecutionStep) :
    s ∈ executableSteps plan comp ↔
      s ∈ plan.steps ∧ s.id ∉ comp ∧ ∀ d ∈ s.depends_on, d ∈ comp := by
  simp [executableSteps, List.mem_filter, List.all_eq_true, and_assoc]

theorem execute_step_ne_fuelExhausted (reg : Registry) (sem : Option Nat)
    (step : ExecutionStep) (results : List (String × Value)) :
    execute_step reg sem step results ≠ .error .fuelExhausted := by
  unfold execute_step
  split
  · simp
  · split
    · simp
    · split
      · simp
      · split
        · simp
        · split <;> simp

theorem execute_step_ne_deadlock (reg : Registry) (sem : Option Nat)
    (step : ExecutionStep) (results : List (String × Value)) (ids : List String) :
    execute_step reg sem step results ≠ .error (.deadlock ids) := by
  unfold execute_step
  split
  · simp
  · split
    · simp
    · split
      · simp
      · split
        · simp
        · split <;> simp

theorem execute_step_resolveFailure (reg : Registry) (sem : Option Nat)
    (step : ExecutionStep) (results : List (String × Value)) (re : ResolveError)
    (h : execute_step reg sem step results = .error (.resolveFailure re)) :
    resolve_arguments step.arguments results = .error re := by
  unfold execute_step at h
  split at h
  · simp at h
  · split at h
    · rename_i e he
      have : e = re := by simpa using h
      rw [he, this]
    · split at h
      · simp at h
      · split at h
        · simp at h
        · split at h <;> simp at h

theorem runWave_error (reg : Registry) (sem : Option Nat)
    (res : List (String × Value)) :
    ∀ (ws : List ExecutionStep) (e : ExecError),
      runWave reg sem res ws = .error e →
      ∃ s ∈ ws, execute_step reg sem s res = .error e := by
  intro ws
  induction ws with
  | nil => intro e h; exact Except.noConfusion h
  | cons s rest ih =>
    intro e h
    simp only [runWave] at h
    cases hs : execute_step reg sem s res with
    | error e' =>
      rw [hs] at h
      have : e' = e := by simpa [Bind.bind, Except.bind] using h
      exact ⟨s, List.mem_cons_self s rest, by rw [hs, this]⟩
    | ok r =>
      rw [hs] at h
      cases hr : runWave reg sem res rest with
      | error e' =>
        rw [hr] at h
        have : e' = e := by simpa [Bind.bind, Except.bind] using h
        obtain ⟨x, hx, hex⟩ := ih e' (by rw [hr])
        exact ⟨x, List.mem_cons_of_mem s hx, by rw [hex, this]⟩
      | ok rs =>
        rw [hr] at h
        simp [Bind.bind, Except.bind, pure, Except.pure] at h

theorem runWave_ok_length (reg : Registry) (sem : Option Nat)
    (res : List (String × Value)) :
    ∀ (ws : List ExecutionStep) (rs : List Value),
      runWave reg sem res ws = .ok rs → rs.length = ws.length := by
  intro ws
  induction ws with
  | nil =>
    intro rs h
    have : rs = [] := by simpa [runWave, pure, Except.pure] using h.symm
    simp [this]
  | cons s rest ih =>
    intro rs h
    simp only [runWave] at h
    cases hs : execute_step reg sem s res with
    | error e' => rw [hs] at h; simp [Bind.bind, Except.bind] at h
    | ok r =>
      rw [hs] at h
      cases hr : runWave reg sem res rest with
      | error e' => rw [hr] at h; simp [Bind.bind, Except.bind] at h
      | ok rs' =>
        rw [hr] at h
        have : r :: rs' = rs := by
          simpa [Bind.bind, Except.bind, pure, Except.pure] using h
        rw [← this]
        simp [ih rs' (by rw [hr])]

theorem completeWave_completed_extends (t : Nat) :
    ∀ (pairs : List (ExecutionStep × Value)) (res : List (String × Value))
      (comp : List String),
      ∃ ext, (completeWave t pairs res comp).2.1 = comp ++ ext := by
  intro pairs
  induction pairs with
  | nil => intro res comp; exact ⟨[], by simp [completeWave]⟩
  | cons p rest ih =>
    intro res comp
    obtain ⟨s, r⟩ := p
    simp only [completeWave]
    by_cases hm : s.id ∈ comp
    · simp only [if_pos hm]
      exact ih _ comp
    · simp only [if_neg hm]
      obtain ⟨ext, hext⟩ := ih (dictInsert res s.id r) (comp ++ [s.id])
      exact ⟨[s.id] ++ ext, by rw [hext, List.append_assoc]⟩

theorem completeWave_length_le (t : Nat)
    (pairs : List (ExecutionStep × Value)) (res : List (String × Value))
    (comp : List String) :
    comp.length ≤ (completeWave t pairs res comp).2.1.length := by
  obtain ⟨ext, hext⟩ := completeWave_completed_extends t pairs res comp
  simp [hext]

theorem completeWave_head_fresh_lt (t : Nat) (s : ExecutionStep) (r : Value)
    (rest : List (ExecutionStep × Value)) (res : List (String × Value))
    (comp : List String) (h : s.id ∉ comp) :
    comp.length < (completeWave t ((s, r) :: rest) res comp).2.1.length := by
  simp only [completeWave, if_neg h]
  have hle := completeWave_length_le t rest (dictInsert res s.id r) (comp ++ [s.id])
  simp only [List.length_append, List.length_singleton] at hle
  omega

theorem completeWave_pres (P : List String → Prop)
    (steps : List ExecutionStep)
    (hinv : ∀ comp s, P comp → s ∈ steps → s.id ∉ comp →
      (∀ d ∈ s.depends_on, d ∈ comp) → P (comp ++ [s.id])) (t : Nat) :
    ∀ (pairs : List (ExecutionStep × Value)) (res : List (String × Value))
      (comp : List String), P comp →
      (∀ p ∈ pairs, p.1 ∈ steps ∧ ∀ d ∈ p.1.depends_on, d ∈ comp) →
      P (completeWave t pairs res comp).2.1 := by
  intro pairs
  induction pairs with
  | nil => intro res comp hP _; simpa [completeWave] using hP
  | cons p rest ih =>
    intro res comp hP hps
    obtain ⟨s, r⟩ := p
    simp only [completeWave]
    by_cases hm : s.id ∈ comp
    · simp only [if_pos hm]
      exact ih _ comp hP (fun q hq => hps q (List.mem_cons_of_mem _ hq))
    · simp only [if_neg hm]
      obtain ⟨hs, hd⟩ := hps (s, r) (List.mem_cons_self _ _)
      refine ih _ (comp ++ [s.id]) (hinv comp s hP hs hm hd) ?_
      intro q hq
      obtain ⟨h1, h2⟩ := hps q (List.mem_cons_of_mem _ hq)
      exact ⟨h1, fun d hdq => List.mem_append_left _ (h2 d hdq)⟩

theorem completeWave_keys (t : Nat) :
    ∀ (pairs : List (ExecutionStep × Value)) (res : List (String × Value))
      (comp : List String),
      (∀ d ∈ comp, lookupKey res d ≠ none) →
      ∀ d ∈ (completeWave t pairs res comp).2.1,
        lookupKey (completeWave t pairs res comp).1 d ≠ none := by
  intro pairs
  induction pairs with
  | nil =>
    intro res comp hk
    simpa [completeWave] using hk
  | cons p rest ih =>
    intro res comp hk
    obtain ⟨s, r⟩ := p
    simp only [completeWave]
    by_cases hm : s.id ∈ comp
    · simp only [if_pos hm]
      refine ih _ comp ?_
      intro d hd
      rw [lookupKey_dictInsert]
      split
      · simp
      · exact hk d hd
    · simp only [if_neg hm]
      refine ih _ (comp ++ [s.id]) ?_
      intro d hd
      rw [lookupKey_dictInsert]
      rcases List.mem_append.mp hd with hd' | hd'
      · split
        · simp
        · exact hk d hd'
      · have : d = s.id := by simpa using hd'
        subst this
        simp

theorem execute_loop_not_ok (reg : Registry) (sem : Option Nat)
    (plan : ExecutionPlan) (P : List String → Prop)
    (hinv : ∀ comp s, P comp → s ∈ plan.steps → s.id ∉ comp →
      (∀ d ∈ s.depends_on, d ∈ comp) → P (comp ++ [s.id]))
    (hlt : ∀ comp, P comp → comp.length < plan.steps.length) :
    ∀ (fuel : Nat) (res : List (String × Value)) (comp : List String)
      (trace : List CallbackEvent) (r : List (String × Value)), P comp →
      (execute_loop reg sem plan fuel res comp trace).1 ≠ .ok r := by
  intro fuel
  induction fuel with
  | zero =>
    intro res comp trace r hP
    simp [execute_loop, if_pos (hlt comp hP)]
  | succ fuel ih =>
    intro res comp trace r hP
    simp only [execute_loop, if_pos (hlt comp hP)]
    cases hw : executableSteps plan comp with
    | nil => simp
    | cons s ws =>
      simp only
      cases hr : runWave reg sem res (s :: ws) with
      | error e => simp
      | ok rs =>
        simp only
        refine ih _ _ _ r ?_
        refine completeWave_pres P plan.steps hinv plan.steps.length _ res comp hP ?_
        intro p hp
        have hmem : p.1 ∈ s :: ws := (List.of_mem_zip (by exact hp)).1
        rw [← hw] at hmem
        obtain ⟨h1, -, h3⟩ := (mem_executableSteps plan comp p.1).mp hmem
        exact ⟨h1, h3⟩

theorem execute_loop_no_fuelExhausted (reg : Registry) (sem : Option Nat)
    (plan : ExecutionPlan) :
    ∀ (fuel : Nat) (res : List (String × Value)) (comp : List String)
      (trace : List CallbackEvent),
      comp.Nodup → (∀ x ∈ comp, x ∈ plan.steps.map (fun s => s.id)) →
      plan.steps.length ≤ fuel + comp.length →
      (execute_loop reg sem plan fuel res comp trace).1 ≠ .error .fuelExhausted := by
  intro fuel
  induction fuel with
  | zero =>
    intro res comp trace hnd hsub hcnt
    have : ¬comp.length < plan.steps.length := by omega
    simp [execute_loop, if_neg this]
  | succ fuel ih =>
    intro res comp trace hnd hsub hcnt
    by_cases hlt : comp.length < plan.steps.length
    · simp only [execute_loop, if_pos hlt]
      cases hw : executableSteps plan comp with
      | nil => simp
      | cons s ws =>
        simp only
        cases hr : runWave reg sem res (s :: ws) with
        | error e =>
          obtain ⟨s', -, hs'⟩ := runWave_error reg sem res (s :: ws) e hr
          simp only
          intro hcontra
          have he : e = .fuelExhausted := by simpa using hcontra
          subst he
          exact execute_step_ne_fuelExhausted reg sem s' res hs'
        | ok rs =>
          simp only
          have hsmem : s ∈ executableSteps plan comp := by
            rw [hw]; exact List.mem_cons_self _ _
          obtain ⟨hsp, hsid, -⟩ := (mem_executableSteps plan comp s).mp hsmem
          have hlen := runWave_ok_length reg sem res (s :: ws) rs hr
          cases rs with
          | nil => simp at hlen
          | cons r rs' =>
            have hPres : ((completeWave plan.steps.length
                ((s :: ws).zip (r :: rs')) res comp).2.1).Nodup ∧
                ∀ x ∈ (completeWave plan.steps.length
                  ((s :: ws).zip (r :: rs')) res comp).2.1,
                  x ∈ plan.steps.map (fun st => st.id) := by
              refine completeWave_pres
                (fun c => c.Nodup ∧ ∀ x ∈ c, x ∈ plan.steps.map (fun st => st.id))
                plan.steps ?_ plan.steps.length _ res comp ⟨hnd, hsub⟩ ?_
              · intro c st ⟨hc1, hc2⟩ hst hfresh _
                refine ⟨by simp [List.nodup_append, hc1, hfresh], ?_⟩
                intro x hx
                rcases List.mem_append.mp hx with hx' | hx'
                · exact hc2 x hx'
                · have : x = st.id := by simpa using hx'
                  subst this
                  exact List.mem_map.mpr ⟨st, hst, rfl⟩
              · intro p hp
                have hmem : p.1 ∈ s :: ws := (List.of_mem_zip (by exact hp)).1
                rw [← hw] at hmem
                obtain ⟨h1, -, h3⟩ := (mem_executableSteps plan comp p.1).mp hmem
                exact ⟨h1, h3⟩
            have hgrow : comp.length <
                ((completeWave plan.steps.length
                  ((s :: ws).zip (r :: rs')) res comp).2.1).length := by
              have := completeWave_head_fresh_lt plan.steps.length s r
                (ws.zip rs') res comp hsid
              simpa using this
            exact ih _ _ _ hPres.1 hPres.2 (by omega)
    · simp [execute_loop, if_neg hlt]

theorem execute_loop_fuel_stable (reg : Registry) (sem : Option Nat)
    (plan : ExecutionPlan) :
    ∀ (fuel k : Nat) (res : List (String × Value)) (comp : List String)
      (trace : List CallbackEvent),
      (execute_loop reg sem plan fuel res comp trace).1 ≠ .error .fuelExhausted →
      execute_loop reg sem plan (fuel + k) res comp trace =
        execute_loop reg sem plan fuel res comp trace := by
  intro fuel
  induction fuel with
  | zero =>
    intro k res comp trace hne
    by_cases hlt : comp.length < plan.steps.length
    · exact absurd (by simp [execute_loop, if_pos hlt]) hne
    · have h1 : execute_loop reg sem plan (0 + k) res comp trace = (.ok res, trace) := by
        rw [execute_loop.eq_def]
        dsimp only
        rw [if_neg hlt]
      have h2 : execute_loop reg sem plan 0 res comp trace = (.ok res, trace) := by
        rw [execute_loop.eq_def]
        dsimp only
        rw [if_neg hlt]
      rw [h1, h2]
  | succ fuel ih =>
    intro k res comp trace hne
    rw [Nat.succ_add]
    by_cases hlt : comp.length < plan.steps.length
    · rw [execute_loop, if_pos hlt]
      rw [execute_loop, if_pos hlt] at hne ⊢
      cases hw : executableSteps plan comp with
      | nil => simp
      | cons s ws =>
        simp only
        rw [hw] at hne
        simp only at hne
        cases hr : runWave reg sem res (s :: ws) with
        | error e => simp
        | ok rs =>
          rw [hr] at hne
          simp only at hne
          exact ih k _ _ _ hne
    · have h1 : execute_loop reg sem plan (fuel + 1 + k) res comp trace
          = (.ok res, trace) := by
        rw [execute_loop.eq_def]
        dsimp only
        rw [if_neg hlt]
      have h2 : execute_loop reg sem plan (fuel + 1) res comp trace
          = (.ok res, trace) := by
        rw [execute_loop.eq_def]
        dsimp only
        rw [if_neg hlt]
      rw [Nat.succ_add] at h1
      rw [h1, h2]

theorem execute_loop_no_stepNotFound (reg : Registry) (sem : Option Nat)
    (plan : ExecutionPlan)
    (href : ∀ s ∈ plan.steps, ∀ x ∈ argRefSteps s.arguments, x ∈ s.depends_on) :
    ∀ (fuel : Nat) (res : List (String × Value)) (comp : List String)
      (trace : List CallbackEvent) (sid : String),
      (∀ d ∈ comp, lookupKey res d ≠ none) →
      (execute_loop reg sem plan fuel res comp trace).1 ≠
        .error (.resolveFailure (.stepNotFound sid)) := by
  intro fuel
  induction fuel with
  | zero =>
    intro res comp trace sid hkeys
    by_cases hlt : comp.length < plan.steps.length
    · simp [execute_loop, if_pos hlt]
    · simp [execute_loop, if_neg hlt]
  | succ fuel ih =>
    intro res comp trace sid hkeys
    by_cases hlt : comp.length < plan.steps.length
    · simp only [execute_loop, if_pos hlt]
      cases hw : executableSteps plan comp with
      | nil => simp
      | cons s ws =>
        simp only
        cases hr : runWave reg sem res (s :: ws) with
        | error e =>
          simp only
          intro hcontra
          have he : e = .resolveFailure (.stepNotFound sid) := by simpa using hcontra
          subst he
          obtain ⟨s', hs'mem, hs'⟩ := runWave_error reg sem res (s :: ws) _ hr
          have hra := execute_step_resolveFailure reg sem s' res _ hs'
          obtain ⟨hmem, hnone⟩ := resolve_arguments_stepNotFound _ res sid hra
          rw [← hw] at hs'mem
          obtain ⟨h1, -, h3⟩ := (mem_executableSteps plan comp s').mp hs'mem
          have : sid ∈ comp := h3 sid (href s' h1 sid hmem)
          exact hkeys sid this hnone
        | ok rs =>
          simp only
          refine ih _ _ _ sid ?_
          exact completeWave_keys plan.steps.length _ res comp hkeys
    · simp [execute_loop, if_neg hlt]

theorem length_lt_of_missing {comp ids : List String} (x : String)
    (hnd : comp.Nodup) (hsub : ∀ y ∈ comp, y ∈ ids) (hx : x ∈ ids)
    (hnx : x ∉ comp) : comp.length < ids.length := by
  have h1 : comp.toFinset ⊆ ids.toFinset := fun a ha =>
    List.mem_toFinset.mpr (hsub a (List.mem_toFinset.mp ha))
  have h2 : comp.toFinset ⊂ ids.toFinset :=
    (Finset.ssubset_iff_of_subset h1).mpr
      ⟨x, List.mem_toFinset.mpr hx, fun hc => hnx (List.mem_toFinset.mp hc)⟩
  calc comp.length = comp.toFinset.card := (List.toFinset_card_of_nodup hnd).symm
    _ < ids.toFinset.card := Finset.card_lt_card h2
    _ ≤ ids.length := List.toFinset_card_le ids

theorem length_lt_of_not_nodup {comp ids : List String}
    (hnd : comp.Nodup) (hsub : ∀ y ∈ comp, y ∈ ids) (h : ¬ids.Nodup) :
    comp.length < ids.length := by
  have h1 : comp.toFinset ⊆ ids.toFinset := fun a ha =>
    List.mem_toFinset.mpr (hsub a (List.mem_toFinset.mp ha))
  have h3 : ids.toFinset.card < ids.length := by
    rw [List.card_toFinset]
    rcases Nat.lt_or_ge ids.dedup.length ids.length with hlt | hge
    · exact hlt
    · exfalso
      have heq : ids.dedup.length = ids.length :=
        Nat.le_antisymm (List.dedup_sublist ids).length_le hge
      have : ids.dedup = ids := (List.dedup_sublist ids).eq_of_length heq
      exact h (this ▸ ids.nodup_dedup)
  calc comp.length = comp.toFinset.card := (List.toFinset_card_of_nodup hnd).symm
    _ ≤ ids.toFinset.card := Finset.card_le_card h1
    _ < ids.length := h3

theorem not_ok_of_dup_ids (plan : ExecutionPlan)
    (h : ¬(plan.steps.map (fun s => s.id)).Nodup) :
    ∀ (reg : Registry) (sem : Option Nat) (fuel : Nat)
      (res : List (String × Value)) (trace : List CallbackEvent)
      (r : List (String × Value)),
      (execute_loop reg sem plan fuel res [] trace).1 ≠ .ok r := by
  intro reg sem fuel res trace r
  refine execute_loop_not_ok reg sem plan
    (fun comp => comp.Nodup ∧ ∀ x ∈ comp, x ∈ plan.steps.map (fun s => s.id))
    ?_ ?_ fuel res [] trace r ⟨List.nodup_nil, by simp⟩
  · intro comp s ⟨h1, h2⟩ hs hfresh _
    refine ⟨by simp [List.nodup_append, h1, hfresh], ?_⟩
    intro x hx
    rcases List.mem_append.mp hx with hx' | hx'
    · exact h2 x hx'
    · have : x = s.id := by simpa using hx'
      subst this
      exact List.mem_map.mpr ⟨s, hs, rfl⟩
  · intro comp ⟨h1, h2⟩
    have := length_lt_of_not_nodup h1 h2 h
    simpa using this

theorem not_ok_of_cycle (plan : ExecutionPlan)
    (hcyc : HasDependencyCycle plan) :
    ∀ (reg : Registry) (sem : Option Nat) (fuel : Nat)
      (res : List (String × Value)) (trace : List CallbackEvent)
      (r : List (String × Value)),
      (execute_loop reg sem plan fuel res [] trace).1 ≠ .ok r := by
  intro reg sem fuel res trace r
  by_cases hnd : (plan.steps.map (fun s => s.id)).Nodup
  · obtain ⟨c, hne, hc⟩ := hcyc
    -- every step whose id lies on the cycle depends on another cycle member
    have hblock : ∀ s ∈ plan.steps, s.id ∈ c → ∃ d ∈ s.depends_on, d ∈ c := by
      intro s hs hid
      obtain ⟨i, hi⟩ := List.mem_iff_get.mp hid
      obtain ⟨s', hs', hid', hdep'⟩ := hc i
      have : s = s' :=
        List.inj_on_of_nodup_map hnd hs hs' (by rw [hid', hi])
      subst this
      exact ⟨c.get ⟨(i.1 + 1) % c.length, Nat.mod_lt _ (List.length_pos.mpr hne)⟩,
        hdep', c.get_mem _ _⟩
    have hcid : ∀ x ∈ c, x ∈ plan.steps.map (fun s => s.id) := by
      intro x hx
      obtain ⟨i, hi⟩ := List.mem_iff_get.mp hx
      obtain ⟨s', hs', hid', -⟩ := hc i
      exact List.mem_map.mpr ⟨s', hs', by rw [hid', hi]⟩
    refine execute_loop_not_ok reg sem plan
      (fun comp => comp.Nodup ∧ (∀ x ∈ comp, x ∈ plan.steps.map (fun s => s.id)) ∧
        ∀ x ∈ c, x ∉ comp)
      ?_ ?_ fuel res [] trace r ⟨List.nodup_nil, by simp, by simp⟩
    · intro comp s ⟨h1, h2, h3⟩ hs hfresh hdeps
      refine ⟨by simp [List.nodup_append, h1, hfresh], ?_, ?_⟩
      · intro x hx
        rcases List.mem_append.mp hx with hx' | hx'
        · exact h2 x hx'
        · have : x = s.id := by simpa using hx'
          subst this
          exact List.mem_map.mpr ⟨s, hs, rfl⟩
      · intro x hx hmem
        rcases List.mem_append.mp hmem with hx' | hx'
        · exact h3 x hx hx'
        · have hxs : x = s.id := by simpa using hx'
          subst hxs
          obtain ⟨d, hd, hdc⟩ := hblock s hs hx
          exact h3 d hdc (hdeps d hd)
    · intro comp ⟨h1, h2, h3⟩
      have hc0 : ∃ x, x ∈ c := by
        cases c with
        | nil => exact absurd rfl hne
        | cons a c' => exact ⟨a, List.mem_cons_self a c'⟩
      obtain ⟨x, hx⟩ := hc0
      have := length_lt_of_missing x h1 h2 (hcid x hx) (h3 x hx)
      simpa using this
  · exact not_ok_of_dup_ids plan hnd reg sem fuel res trace r

theorem not_ok_of_dangling (plan : ExecutionPlan)
    (hdang : HasDanglingDep plan) :
    ∀ (reg : Registry) (sem : Option Nat) (fuel : Nat)
      (res : List (String × Value)) (trace : List CallbackEvent)
      (r : List (String × Value)),
      (execute_loop reg sem plan fuel res [] trace).1 ≠ .ok r := by
  intro reg sem fuel res trace r
  by_cases hnd : (plan.steps.map (fun s => s.id)).Nodup
  · obtain ⟨s0, hs0, d0, hd0, hnid⟩ := hdang
    refine execute_loop_not_ok reg sem plan
      (fun comp => comp.Nodup ∧ (∀ x ∈ comp, x ∈ plan.steps.map (fun s => s.id)) ∧
        s0.id ∉ comp)
      ?_ ?_ fuel res [] trace r ⟨List.nodup_nil, by simp, by simp⟩
    · intro comp s ⟨h1, h2, h3⟩ hs hfresh hdeps
      refine ⟨by simp [List.nodup_append, h1, hfresh], ?_, ?_⟩
      · intro x hx
        rcases List.mem_append.mp hx with hx' | hx'
        · exact h2 x hx'
        · have : x = s.id := by simpa using hx'
          subst this
          exact List.mem_map.mpr ⟨s, hs, rfl⟩
      · intro hmem
        rcases List.mem_append.mp hmem with hx' | hx'
        · exact h3 hx'
        · have hxs : s0.id = s.id := by simpa using hx'
          have : s0 = s := List.inj_on_of_nodup_map hnd hs0 hs hxs
          subst this
          exact hnid (h2 d0 (hdeps d0 hd0))
    · intro comp ⟨h1, h2, h3⟩
      have := length_lt_of_missing s0.id h1 h2
        (List.mem_map.mpr ⟨s0, hs0, rfl⟩) h3
      simpa using this
  · exact not_ok_of_dup_ids plan hnd reg sem fuel res trace r

/-- C1: whenever a loop iteration of `execute_plan` starts with an empty
ready set while uncompleted steps remain, it returns at once the deadlock
RuntimeError listing exactly the IDs of the steps not yet completed
(conjunct 1); a plan with a dependency cycle, and a plan with a
`depends_on` entry naming no step of the plan, can never yield a results
map (conjuncts 2 and 3); on the spec's P6 shapes the failure is the
deadlock error reporting every step ID, with the exact message text
(conjuncts 4-6). -/
theorem deadlock_detection :
    (∀ (reg : Registry) (sem : Option Nat) (plan : ExecutionPlan) (fuel : Nat)
      (res : List (String × Value)) (comp : List String)
      (trace : List CallbackEvent),
      executableSteps plan comp = [] → comp.length < plan.steps.length →
      execute_loop reg sem plan (fuel + 1) res comp trace =
        (.error (.deadlock (remainingIds plan comp)), trace)) ∧
    (∀ plan, HasDependencyCycle plan →
      ∀ (reg : Registry) (mc : Option Nat) (r : List (String × Value)),
        (execute_plan reg plan mc).1 ≠ .ok r) ∧
    (∀ plan, HasDanglingDep plan →
      ∀ (reg : Registry) (mc : Option Nat) (r : List (String × Value)),
        (execute_plan reg plan mc).1 ≠ .ok r) ∧
    (execute_plan [] cyclePlanC1 none).1 = .error (.deadlock ["A", "B"]) ∧
    (execute_plan [] danglingPlanC1 none).1 = .error (.deadlock ["A", "B"]) ∧
    execErrorMessage (.deadlock ["A", "B"]) =
      "Cannot execute plan: circular dependency or missing steps. " ++
        "Remaining steps: [\x27A\x27, \x27B\x27]" := by
  refine ⟨?_, ?_, ?_, rfl, rfl, rfl⟩
  · intro reg sem plan fuel res comp trace hempty hlt
    rw [execute_loop, if_pos hlt]
    simp [hempty]
  · intro plan hcyc reg mc r
    exact not_ok_of_cycle plan hcyc reg (mkSemaphore mc) plan.steps.length [] [] r
  · intro plan hdang reg mc r
    exact not_ok_of_dangling plan hdang reg (mkSemaphore mc) plan.steps.length [] [] r

theorem deadlock_detection_witness :
    (execute_plan [] cyclePlanC1 none).1 ≠ .ok [] ∧
    (execute_plan [] danglingPlanC1 none).1 ≠ .ok [] ∧
    execute_loop [] none cyclePlanC1 1 [] [] [] =
      (.error (.deadlock ["A", "B"]), []) :=
  ⟨deadlock_detection.2.1 cyclePlanC1
      ⟨["A", "B"], by decide, by decide⟩ [] none [],
    deadlock_detection.2.2.1 danglingPlanC1
      ⟨⟨"B", "svc", "tool", [], ["C"]⟩,
        List.mem_cons_of_mem _ (List.mem_cons_self _ _), "C",
        List.mem_cons_self _ _, by decide⟩
      [] none [],
    deadlock_detection.1 [] none cyclePlanC1 0 [] [] [] rfl (by decide)⟩

/-- C6: the wave loop of `execute_plan` terminates within `|steps|`
iterations for every plan: running it with fuel `|steps|` never exhausts
the fuel (conjunct 1), and granting any number of extra iterations changes
nothing (conjunct 2) — so an acyclic self-consistent plan finishes in at
most `|steps|` waves, and a cyclic or dangling plan hits the deadlock
check instead of looping forever. -/
theorem execute_plan_terminates (reg : Registry) (plan : ExecutionPlan)
    (mc : Option Nat) :
    (execute_plan reg plan mc).1 ≠ .error .fuelExhausted ∧
    ∀ extra : Nat,
      execute_loop reg (mkSemaphore mc) plan (plan.steps.length + extra) [] [] [] =
        execute_plan reg plan mc := by
  have hno := execute_loop_no_fuelExhausted reg (mkSemaphore mc) plan
    plan.steps.length [] [] [] List.nodup_nil (by simp) (by simp)
  exact ⟨hno, fun extra => execute_loop_fuel_stable reg (mkSemaphore mc) plan
    plan.steps.length extra [] [] [] hno⟩

/-- C3: in an acyclic plan in which every `$`-reference in a step's
arguments names a step of that step's `depends_on`, a ready step's
dependencies always have their results present in the results map
(conjunct 1, since dependencies are in `completed` and every completed
step has a recorded result), and consequently `execute_plan` can never
fail with the resolver's "step not found" branch (conjunct 2). -/
theorem references_always_resolvable (reg : Registry) (plan : ExecutionPlan)
    (mc : Option Nat)
    (hacyc : PlanAcyclic plan)
    (href : ∀ s ∈ plan.steps, ∀ x ∈ argRefSteps s.arguments, x ∈ s.depends_on) :
    (∀ (res : List (String × Value)) (comp : List String),
        (∀ d ∈ comp, lookupKey res d ≠ none) →
        ∀ s ∈ executableSteps plan comp, ∀ d ∈ s.depends_on,
          lookupKey res d ≠ none) ∧
    ∀ sid : String,
      (execute_plan reg plan mc).1 ≠ .error (.resolveFailure (.stepNotFound sid)) := by
  constructor
  · intro res comp hkeys s hs d hd
    obtain ⟨-, -, h3⟩ := (mem_executableSteps plan comp s).mp hs
    exact hkeys d (h3 d hd)
  · intro sid
    exact execute_loop_no_stepNotFound reg (mkSemaphore mc) plan href
      plan.steps.length [] [] [] sid (by simp)

theorem references_always_resolvable_witness :
    (execute_plan [] chainPlanC3 none).1 ≠
      .error (.resolveFailure (.stepNotFound "step1")) :=
  (references_always_resolvable [] chainPlanC3 none
    ⟨fun s => if s = "step2" then 1 else 0, by decide⟩
    (by decide)).2 "step1"

/-- C2: the resolver maps argument values exactly as specified: a
`$`-string is resolved by stripping the sigil, splitting on `.`, looking
the first segment up in the results map and traversing the remaining
segments as keyed field accesses (conjunct 1, via the spec-side
`specResolveRef`); a list is mapped element-wise, resolving `$`-string
elements by the same rule and keeping every other element as-is
(conjuncts 2-4); every other value passes through unchanged (conjunct 5);
`_resolve_arguments` applies this per-value rule to every binding
(conjunct 6); and the spec's P7 instance resolves `$step1.field1` to
exactly `"value1"` (conjunct 7). -/
theorem resolver_contract :
    (∀ (results : List (String × Value)) (s : String), startsWithDollar s →
      resolveValue results (.vstr s) = resolve_variable s results ∧
      ∀ v : Value, resolve_variable s results = .ok v ↔
        specResolveRef s results = some v) ∧
    (∀ (results : List (String × Value)) (items : List Value),
      resolveValue results (.vlist items) =
        (items.mapM (resolveListItem results)).map .vlist) ∧
    (∀ (results : List (String × Value)) (t : String), startsWithDollar t →
      resolveListItem results (.vstr t) = resolve_variable t results) ∧
    (∀ (results : List (String × Value)) (item : Value),
      (∀ t, item = Value.vstr t → startsWithDollar t = false) →
      resolveListItem results item = .ok item) ∧
    (∀ (results : List (String × Value)) (v : Value),
      (∀ t, v = Value.vstr t → startsWithDollar t = false) →
      (∀ l, v ≠ Value.vlist l) → resolveValue results v = .ok v) ∧
    (∀ (results args : List (String × Value)),
      resolve_arguments args results =
        args.mapM (fun kv => (resolveValue results kv.2).map (fun rv => (kv.1, rv)))) ∧
    resolve_arguments [("x", .vstr "$step1.field1")]
        [("step1", .vdict [("field1", .vstr "value1")])] =
      .ok [("x", .vstr "value1")] := by
  refine ⟨?_, ?_, ?_, ?_, ?_, ?_, rfl⟩
  · intro results s hs
    exact ⟨by simp [resolveValue, hs], fun v => resolve_variable_ok_iff s results v⟩
  · intro results items
    rfl
  · intro results t ht
    simp [resolveListItem, ht]
  · intro results item hitem
    cases item with
    | vstr t => simp [resolveListItem, hitem t rfl]
    | vnone => rfl
    | vbool b => rfl
    | vint n => rfl
    | vlist l => rfl
    | vdict kvs => rfl
  · intro results v hv hl
    cases v with
    | vstr t => simp [resolveValue, hv t rfl]
    | vnone => rfl
    | vbool b => rfl
    | vint n => rfl
    | vlist l => exact absurd rfl (hl l)
    | vdict kvs => rfl
  · intro results args
    induction args with
    | nil => rfl
    | cons kv rest ih =>
      obtain ⟨k, v⟩ := kv
      rw [List.mapM_cons, ← ih]
      simp only [resolve_arguments]
      cases hv : resolveValue results v with
      | error e => simp [Except.map, Bind.bind, Except.bind]
      | ok rv =>
        simp [Except.map, Bind.bind, Except.bind]

theorem resolver_contract_witness :
    (startsWithDollar "$step1.field1") = true ∧
    (resolve_variable "$step1.field1"
        [("step1", .vdict [("field1", .vstr "value1")])] = .ok (.vstr "value1") ↔
      specResolveRef "$step1.field1"
        [("step1", .vdict [("field1", .vstr "value1")])] = some (.vstr "value1")) :=
  ⟨by decide,
    (resolver_contract.1 [("step1", .vdict [("field1", .vstr "value1")])]
      "$step1.field1" (by decide)).2 (.vstr "value1")⟩

/-- C7 counterexample: the claim says the "step not found" failure names
the reference and the missing step ID, but the two distinct references
`$x.f` and `$x` raise the identical KeyError with the identical message
`Step 'x' not found in results`, which therefore does not determine (and
does not name) the reference. -/
theorem resolver_error_reporting_counterexample :
    resolve_variable "$x.f" [] = .error (.stepNotFound "x") ∧
    resolve_variable "$x" [] = .error (.stepNotFound "x") ∧
    resolveErrorMessage (.stepNotFound "x") = "Step \x27x\x27 not found in results" ∧
    "$x.f" ≠ "$x" :=
  ⟨rfl, rfl, rfl, by decide⟩

/-- C7 (amended): the resolver fails exactly in these cases — a missing
leading step-ID segment gives a "step not found" KeyError naming the
missing step ID (but not the full reference) (conjunct 1); with the step
present, an error occurs iff the field traversal gets stuck, with a
"field not found" KeyError when the stuck value is a keyed record and a
TypeError when it is not, each naming the field and the step (conjunct
2); if the traversal never gets stuck, resolution succeeds (conjunct 3);
conjuncts 4-6 give the exact message texts. -/
theorem resolver_error_reporting (ref : String)
    (results : List (String × Value)) (sid : String) (fs : List String)
    (hsplit : splitDot (dropSigil ref) = sid :: fs) :
    (∀ x, resolve_variable ref results = .error (.stepNotFound x) ↔
      x = sid ∧ lookupKey results x = none) ∧
    (∀ v0, lookupKey results sid = some v0 →
      ∀ e, resolve_variable ref results = .error e ↔
        ∃ f w, firstFailure v0 fs = some (f, w) ∧
          ((IsRecord w ∧ e = .fieldNotFound f sid) ∨
            (¬IsRecord w ∧ e = .typeErr f sid))) ∧
    (∀ v0, lookupKey results sid = some v0 → firstFailure v0 fs = none →
      ∃ w, resolve_variable ref results = .ok w) ∧
    resolveErrorMessage (.stepNotFound sid) =
      "Step \x27" ++ sid ++ "\x27 not found in results" ∧
    (∀ f, resolveErrorMessage (.fieldNotFound f sid) =
      "Field \x27" ++ f ++ "\x27 not found in step \x27" ++ sid ++ "\x27 result") ∧
    (∀ f, resolveErrorMessage (.typeErr f sid) =
      "Cannot access field \x27" ++ f ++
        "\x27 on non-dict/non-dataclass value from step \x27" ++ sid ++ "\x27") := by
  refine ⟨?_, ?_, ?_, rfl, fun f => rfl, fun f => rfl⟩
  · intro x
    rw [resolve_variable_stepNotFound_iff, hsplit]
    simp
  · intro v0 hv0 e
    rw [resolve_variable_eq ref sid fs results hsplit, hv0]
    exact resolveFields_error_iff fs sid v0 e
  · intro v0 hv0 hff
    obtain ⟨w, hw⟩ := walkFields_total_of_no_failure fs v0 hff
    refine ⟨w, ?_⟩
    rw [resolve_variable_eq ref sid fs results hsplit, hv0]
    exact (resolveFields_ok_iff fs sid v0 w).mpr hw

theorem resolver_error_reporting_witness :
    resolve_variable "$step1.field1" [] = .error (.stepNotFound "step1") ↔
      "step1" = "step1" ∧ lookupKey ([] : List (String × Value)) "step1" = none :=
  (resolver_error_reporting "$step1.field1" [] "step1" ["field1"] (by decide)).1
    "step1"

theorem mkSemaphore_ne_some_zero (mc : Option Nat) : mkSemaphore mc ≠ some 0 := by
  cases mc with
  | none => simp [mkSemaphore]
  | some n =>
    simp only [mkSemaphore]
    split
    · simp
    · rename_i hn
      simp [hn]

/-- C4: when a step's tool invocation raises, the step fails with a
RuntimeError that names the step ID and the tool it called (service and
tool name) and carries the underlying exception as the cause (conjunct 1,
the `from e` chain modelled by the embedded cause string); on the P5
instance the whole `execute_plan` run fails with exactly that wrapped
error — the successful step's result is not returned (conjuncts 2-4). -/
theorem tool_failure_aborts :
    (∀ (mc : Option Nat) (reg : Registry) (step : ExecutionStep)
      (results resolved : List (String × Value)) (srv : Server) (f : Tool)
      (msg : String),
      resolve_arguments step.arguments results = .ok resolved →
      lookupKey reg step.service_name = some srv →
      lookupKey srv step.tool_name = some f →
      f resolved = .error msg →
      execute_step reg (mkSemaphore mc) step results =
        .error (.toolFailure step.id step.service_name step.tool_name msg)) ∧
    (execute_plan regC4 planC4 none).1 =
      .error (.toolFailure "b" "svc" "boom" "division by zero") ∧
    execErrorMessage (.toolFailure "b" "svc" "boom" "division by zero") =
      "Error executing step \x27b\x27 (svc:boom): division by zero" ∧
    ∀ r : List (String × Value), (execute_plan regC4 planC4 none).1 ≠ .ok r := by
  refine ⟨?_, rfl, rfl, ?_⟩
  · intro mc reg step results resolved srv f msg hres hsrv hf hcall
    unfold execute_step
    rw [if_neg (mkSemaphore_ne_some_zero mc), hres, hsrv]
    dsimp only
    rw [hf]
    dsimp only
    rw [hcall]
  · intro r
    intro hcontra
    rw [show (execute_plan regC4 planC4 none).1 =
      .error (.toolFailure "b" "svc" "boom" "division by zero") from rfl] at hcontra
    exact Except.noConfusion hcontra

theorem tool_failure_aborts_witness :
    execute_step regC4 (mkSemaphore none) ⟨"b", "svc", "boom", [], []⟩ [] =
      .error (.toolFailure "b" "svc" "boom" "division by zero") :=
  tool_failure_aborts.1 none regC4 ⟨"b", "svc", "boom", [], []⟩ [] [] _ _
    "division by zero" rfl rfl rfl rfl

/-- C5 counterexample: the server-not-found failure does not name the
step ID or the tool — two plans differing only in their step's ID, and a
third differing in the tool name, all fail with the identical error value
and message (`Server not found: nosvc. Available servers: ['calendar']`,
which mentions neither `s1`/`s2` nor a tool name). -/
theorem dispatch_error_counterexample :
    (execute_plan regC5 (planC5 "s1") none).1 =
      .error (.serverNotFound "nosvc" ["calendar"]) ∧
    (execute_plan regC5 (planC5 "s2") none).1 =
      (execute_plan regC5 (planC5 "s1") none).1 ∧
    (execute_plan regC5 ⟨[⟨"s1", "nosvc", "othertool", [], []⟩], "r"⟩ none).1 =
      (execute_plan regC5 (planC5 "s1") none).1 ∧
    execErrorMessage (.serverNotFound "nosvc" ["calendar"]) =
      "Server not found: nosvc. Available servers: [\x27calendar\x27]" ∧
    "s1" ≠ "s2" :=
  ⟨rfl, rfl, rfl, rfl, by decide⟩

/-- C5 (amended): a step naming an unknown service fails the whole
execution with a RuntimeError naming the service and the known services
(conjunct 1); a step naming an unknown tool of a known service fails with
a RuntimeError naming the tool, the service and that service's known
tools (conjunct 2) — neither error names the step ID, since both are
raised before the step-wrapping `try` block; conjuncts 3-6 run the two
one-step instances end-to-end and give the exact message texts. -/
theorem dispatch_error_reporting :
    (∀ (mc : Option Nat) (reg : Registry) (step : ExecutionStep)
      (results resolved : List (String × Value)),
      resolve_arguments step.arguments results = .ok resolved →
      lookupKey reg step.service_name = none →
      execute_step reg (mkSemaphore mc) step results =
        .error (.serverNotFound step.service_name (reg.map Prod.fst))) ∧
    (∀ (mc : Option Nat) (reg : Registry) (step : ExecutionStep)
      (results resolved : List (String × Value)) (srv : Server),
      resolve_arguments step.arguments results = .ok resolved →
      lookupKey reg step.service_name = some srv →
      lookupKey srv step.tool_name = none →
      execute_step reg (mkSemaphore mc) step results =
        .error (.toolNotFound step.tool_name step.service_name
          (srv.map Prod.fst))) ∧
    (execute_plan regC5 (planC5 "s1") none).1 =
      .error (.serverNotFound "nosvc" ["calendar"]) ∧
    (execute_plan regC5b planC5b none).1 =
      .error (.toolNotFound "missing" "svc" ["t1"]) ∧
    execErrorMessage (.serverNotFound "nosvc" ["calendar"]) =
      "Server not found: nosvc. Available servers: [\x27calendar\x27]" ∧
    execErrorMessage (.toolNotFound "missing" "svc" ["t1"]) =
      "Tool \x27missing\x27 not found in server \x27svc\x27. " ++
        "Available tools: [\x27t1\x27]" := by
  refine ⟨?_, ?_, rfl, rfl, rfl, rfl⟩
  · intro mc reg step results resolved hres hsrv
    unfold execute_step
    rw [if_neg (mkSemaphore_ne_some_zero mc), hres, hsrv]
  · intro mc reg step results resolved srv hres hsrv hf
    unfold execute_step
    rw [if_neg (mkSemaphore_ne_some_zero mc), hres, hsrv]
    dsimp only
    rw [hf]

theorem dispatch_error_reporting_witness :
    execute_step regC5 (mkSemaphore none) ⟨"s1", "nosvc", "t", [], []⟩ [] =
      .error (.serverNotFound "nosvc" ["calendar"]) ∧
    execute_step regC5b (mkSemaphore none) ⟨"s1", "svc", "missing", [], []⟩ [] =
      .error (.toolNotFound "missing" "svc" ["t1"]) :=
  ⟨dispatch_error_reporting.1 none regC5 ⟨"s1", "nosvc", "t", [], []⟩ [] [] rfl rfl,
    dispatch_error_reporting.2.1 none regC5b ⟨"s1", "svc", "missing", [], []⟩
      [] [] _ rfl rfl rfl⟩

/-- C10: passing `max_concurrent = 0` is identical to passing `None`: the
Python truthiness test `if max_concurrent` creates no semaphore for `0`
(conjuncts 1-3, with conjunct 1 covering every plan, registry and
callback trace), whereas an actual zero-capacity semaphore would block
every step forever (conjunct 4, the `blocked` outcome). -/
theorem max_concurrent_zero (reg : Registry) (plan : ExecutionPlan) :
    execute_plan reg plan (some 0) = execute_plan reg plan none ∧
    mkSemaphore (some 0) = none ∧
    mkSemaphore none = none ∧
    ∀ (r : Registry) (step : ExecutionStep) (results : List (String × Value)),
      execute_step r (some 0) step results = .error .blocked := by
  refine ⟨rfl, rfl, rfl, ?_⟩
  intro r step results
  unfold execute_step
  rw [if_pos rfl]

/-- C8 counterexample: the validator matches on the concatenated key
`service_name.tool_name`, not on the (server, name) pair itself — with
the single available tool `("a.b", "c")` and a step asking service `"a"`
for tool `"b.c"`, it returns no errors although no available tool has
server `"a"` and name `"b.c"`, contradicting the claimed iff. -/
theorem validator_counterexample :
    validate_execution_plan dotPlanC8 dotToolsC8 = [] ∧
    ∀ t ∈ dotToolsC8, ¬(t.server = "a" ∧ t.name = "b.c") :=
  ⟨rfl, by decide⟩

theorem length_filterMap_if {α β : Type} (l : List α) (p : α → Prop)
    [DecidablePred p] (g : α → β) :
    (l.filterMap (fun a => if p a then none else some (g a))).length =
      (l.filter (fun a => decide (¬p a))).length := by
  induction l with
  | nil => rfl
  | cons a l ih =>
    by_cases h : p a <;>
      simp [List.filterMap_cons, List.filter_cons, h, ih]

/-- C8 (amended): the validator returns no errors iff, for every step,
the concatenated key `service_name.tool_name` equals the key
`server.name` of some available tool (string-key matching, which
identifies dotted names — see the counterexample) and every dependency ID
names a step of the plan (conjunct 1); it emits exactly one error string
per violation (conjunct 2); and it performs no cycle check: a cyclic but
well-referenced plan validates clean (conjunct 3). -/
theorem validator_contract :
    (∀ (plan : ExecutionPlan) (tools : List ToolInfo),
      validate_execution_plan plan tools = [] ↔
        ∀ s ∈ plan.steps,
          (s.service_name ++ "." ++ s.tool_name) ∈
            tools.map (fun t => t.server ++ "." ++ t.name) ∧
          ∀ d ∈ s.depends_on, d ∈ plan.steps.map (fun t => t.id)) ∧
    (∀ (plan : ExecutionPlan) (tools : List ToolInfo),
      (validate_execution_plan plan tools).length =
        (plan.steps.map (fun s =>
          (if (s.service_name ++ "." ++ s.tool_name) ∈
              tools.map (fun t => t.server ++ "." ++ t.name) then 0 else 1) +
          (s.depends_on.filter
            (fun d => decide (¬d ∈ plan.steps.map (fun t => t.id)))).length)).sum) ∧
    validate_execution_plan
      ⟨[⟨"A", "svc", "t", [], ["B"]⟩, ⟨"B", "svc", "t", [], ["A"]⟩], "cycle"⟩
      [⟨"svc", "t"⟩] = [] := by
  refine ⟨?_, ?_, rfl⟩
  · intro plan tools
    simp only [validate_execution_plan, List.flatMap_eq_nil_iff, List.append_eq_nil,
      List.filterMap_eq_nil_iff]
    refine forall_congr' fun s => imp_congr_right fun hs => and_congr ?_ ?_
    · constructor
      · intro h
        by_contra hc
        rw [if_neg hc] at h
        exact List.cons_ne_nil _ _ h
      · intro h
        rw [if_pos h]
    · refine forall_congr' fun d => imp_congr_right fun hd => ?_
      constructor
      · intro h
        by_contra hc
        rw [if_neg hc] at h
        exact Option.noConfusion h
      · intro h
        rw [if_pos h]
  · intro plan tools
    simp only [validate_execution_plan, List.length_flatMap]
    congr 1
    apply List.map_congr_left
    intro s hs
    dsimp only [Function.comp]
    rw [List.length_append, length_filterMap_if]
    congr 1
    split <;> rfl

/-- C9: for a single-step plan whose step succeeds, the progress callback
fires exactly twice — first with result `None` before the tool is
dispatched, then with the step's actual result — both invocations
carrying the same step descriptor and the same 1-indexed step number
(1 of 1), and the returned results map holds exactly that step's result. -/
theorem progress_callback_single_step (reg : Registry) (mc : Option Nat)
    (s : ExecutionStep) (rat : String) (res : List (String × Value))
    (trace : List CallbackEvent)
    (h : execute_plan reg ⟨[s], rat⟩ mc = (.ok res, trace)) :
    ∃ r : Value, res = [(s.id, r)] ∧
      trace = [⟨1, 1, s, none⟩, ⟨1, 1, s, some r⟩] := by
  cases hd : s.depends_on with
  | cons d ds =>
    have hkey : (execute_plan reg ⟨[s], rat⟩ mc).1 =
        .error (.deadlock (remainingIds ⟨[s], rat⟩ [])) := by
      simp [execute_plan, execute_loop, executableSteps, hd]
    rw [h] at hkey
    exact absurd hkey (by simp)
  | nil =>
    cases he : execute_step reg (mkSemaphore mc) s [] with
    | error e =>
      have hkey : (execute_plan reg ⟨[s], rat⟩ mc).1 = .error e := by
        simp [execute_plan, execute_loop, executableSteps, hd, runWave, he,
          Bind.bind, Except.bind]
      rw [h] at hkey
      exact absurd hkey (by simp)
    | ok r =>
      have hkey : execute_plan reg ⟨[s], rat⟩ mc =
          (.ok [(s.id, r)], [⟨1, 1, s, none⟩, ⟨1, 1, s, some r⟩]) := by
        simp [execute_plan, execute_loop, executableSteps, hd, waveStartEvents,
          runWave, he, completeWave, dictInsert, Bind.bind, Except.bind,
          pure, Except.pure, List.enum]
      rw [h] at hkey
      injection hkey with h1 h2
      exact ⟨r, Except.ok.inj h1, h2⟩

theorem progress_callback_single_step_witness :
    ∃ r : Value, [(("only" : String), Value.vint 42)] = [(stepC9.id, r)] ∧
      ([⟨1, 1, stepC9, none⟩, ⟨1, 1, stepC9, some (Value.vint 42)⟩] :
          List CallbackEvent) =
        [⟨1, 1, stepC9, none⟩, ⟨1, 1, stepC9, some r⟩] :=
  progress_callback_single_step regC9 none stepC9 "single"
    [("only", Value.vint 42)]
    [⟨1, 1, stepC9, none⟩, ⟨1, 1, stepC9, some (Value.vint 42)⟩] rfl

theorem execute_plan_terminates_witness :
    (execute_plan [] ⟨[], "empty"⟩ none).1 ≠ .error .fuelExhausted ∧
    execute_loop [] (mkSemaphore none) ⟨[], "empty"⟩
        ((⟨[], "empty"⟩ : ExecutionPlan).steps.length + 5) [] [] [] =
      execute_plan [] ⟨[], "empty"⟩ none :=
  ⟨(execute_plan_terminates [] ⟨[], "empty"⟩ none).1,
    (execute_plan_terminates [] ⟨[], "empty"⟩ none).2 5⟩
